import Mathlib

/-!
Formal model of the mosaic-ai-labs/api-examples repository.

The definitions below are shallow embeddings of the TypeScript sources:

* `create-shorts-post-to-socials/src/App.tsx` — the `processVideo` upload
  pipeline (`processVideo`), its `setInterval` poll callback (`pollTick`)
  and the induced poll loop (`pollLoop`), plus the timer bookkeeping of the
  component (`processVideoStartTimer`, `appUnmount`).
* `vercel-ai-sdk-example/app/api/chat/route.ts` — the message filter of the
  `POST` handler (`keepMessage`, `filterMessages`, `chatPOST`).
* the demo `Home` page — the `currentStep` tracking effect (`advanceStep`).
* the `Preview` component — `transformCode` and its two regex rewrites.

Remote HTTP responses are passed in explicitly (`FetchResult`), so each
function of the code becomes a pure function of its inputs and of the
server's answers.
-/

/-- Run status as reported by `get-agent-run-simple`
(spec: pending / processing / success / failed). -/
inductive RunStatus where
  | pending
  | processing
  | success
  | failed
deriving DecidableEq, Repr

/-- The terminal statuses are success and failed; `App.tsx` tests
`status === 'success'` and `status === 'failed'` and keeps going otherwise. -/
def isTerminalStatus : RunStatus → Bool
  | .success => true
  | .failed => true
  | _ => false

/-- UI status values of the `ProcessingStatus` React state in `App.tsx`. -/
inductive UIStatus where
  | idle
  | uploading
  | processing
  | completed
  | error
deriving DecidableEq, Repr

/-- The `ProcessingStatus` state object of `App.tsx`. -/
structure ProcessingStatus where
  status : UIStatus
  progress : Option Nat := none
  message : Option String := none
  outputUrls : Option (List String) := none
deriving DecidableEq, Repr

/-- Result of one HTTP call: the server's value, or a thrown error. -/
inductive FetchResult (α : Type) where
  | ok (val : α)
  | error
deriving DecidableEq, Repr

/-- The HTTP requests `processVideo` and its poll callback can issue,
with the data each request carries. -/
inductive ApiCall where
  | getUploadUrl (filename : String) (fileSize : Nat) (contentType : String)
  | putUpload (url : String) (contentType : String)
  | finalizeUpload (videoId : String)
  | runAgent (fileId : String) (agentId : Option String) (prompt : Option String) (auto : Bool)
  | getRunStatus (runId : String)
  | getRunOutputs (runId : String)
deriving DecidableEq, Repr

/-- One output descriptor of `get-agent-run-outputs`; `download_url` may be
absent (JS `undefined`). -/
structure Output where
  download_url : Option String
deriving DecidableEq, Repr

/-- `App.tsx`: `(outputsResponse.data.outputs || []).map(o => o.download_url).filter(Boolean)`.
A mapped value survives `filter(Boolean)` exactly when it is present and not
the empty string (JS truthiness). -/
def extractOutputUrls (outputs : List Output) : List String :=
  (outputs.map Output.download_url).filterMap fun u =>
    match u with
    | some s => if s = "" then none else some s
    | none => none

/-- What one firing of the `setInterval` callback in `processVideo` did:
the requests it issued, whether it called `clearInterval`, and the
`setProcessingStatus` update it made (if any). -/
structure TickResult where
  requests : List ApiCall
  cleared : Bool
  newUI : Option ProcessingStatus
deriving DecidableEq, Repr

/-- One firing of the poll callback (`App.tsx` lines 281-333).  It always
issues the `get-agent-run-simple` GET; on `success` it clears the interval
and fetches `get-agent-run-outputs`; on `failed` it clears the interval and
sets an error state; otherwise it records progress and keeps the interval;
a thrown error clears the interval and only logs (`console.error`). -/
def pollTick (runId : String) (statusResp : FetchResult (RunStatus × Option Nat))
    (outputsResp : FetchResult (Option (List Output))) : TickResult :=
  match statusResp with
  | .error =>
    { requests := [.getRunStatus runId], cleared := true, newUI := none }
  | .ok (status, progress) =>
    if status = .success then
      match outputsResp with
      | .error =>
        { requests := [.getRunStatus runId, .getRunOutputs runId], cleared := true,
          newUI := none }
      | .ok outs =>
        { requests := [.getRunStatus runId, .getRunOutputs runId], cleared := true,
          newUI := some { status := .completed,
                          message := some "Video processed successfully!",
                          outputUrls := some (extractOutputUrls (outs.getD [])) } }
    else if status = .failed then
      { requests := [.getRunStatus runId], cleared := true,
        newUI := some { status := .error,
                        message := some "Processing failed. Please try again." } }
    else
      { requests := [.getRunStatus runId], cleared := false,
        newUI := some { status := .processing,
                        message := some ("Processing... " ++ toString (progress.getD 0) ++ "%"),
                        progress := progress } }

/-- The server-side data one poll tick can observe: the status response and,
should the tick ask for them, the outputs response. -/
structure PollEvent where
  statusResp : FetchResult (RunStatus × Option Nat)
  outputsResp : FetchResult (Option (List Output))
deriving DecidableEq, Repr

/-- The poll loop: the interval fires once per event until some tick calls
`clearInterval`; after that no further tick fires. -/
def pollLoop (runId : String) : List PollEvent → List TickResult
  | [] => []
  | e :: es =>
    let t := pollTick runId e.statusResp e.outputsResp
    if t.cleared then [t] else t :: pollLoop runId es

/-- An event whose status request succeeds with a non-terminal status. -/
def nonTerminalOk (e : PollEvent) : Bool :=
  match e.statusResp with
  | .ok (st, _) => !isTerminalStatus st
  | .error => false

/-- The three short types selectable in the UI. -/
inductive ShortType where
  | webinar
  | talking
  | prompt
deriving DecidableEq, Repr

/-- The build-time configuration values `App.tsx` reads from
`import.meta.env`. -/
structure EnvConfig where
  webinarAgentId : String
  talkingAgentId : String
deriving DecidableEq, Repr

/-- The fallback prompt used when the prompt text box is empty. -/
def defaultShortPrompt : String :=
  "make this an interesting short, add captions, and add in some background ai music"

/-- The body of the `run-agent` request. -/
structure RunAgentArgs where
  agentId : Option String
  prompt : Option String
  auto : Bool
deriving DecidableEq, Repr

/-- `App.tsx` lines 249-260: pick agent id or prompt from the short type;
`promptText || default` falls back on the empty string (JS truthiness). -/
def selectAgent (cfg : EnvConfig) (shortType : ShortType) (promptText : String) :
    RunAgentArgs :=
  match shortType with
  | .webinar => ⟨some cfg.webinarAgentId, none, false⟩
  | .talking => ⟨some cfg.talkingAgentId, none, false⟩
  | .prompt =>
      ⟨none, some (if promptText = "" then defaultShortPrompt else promptText), true⟩

/-- How `processVideo` ends before polling starts: it reached `setInterval`
with a run id, or some request threw and the `catch` block ran. -/
inductive PipelineOutcome where
  | started (runId : String)
  | errored
deriving DecidableEq, Repr

/-- The `ProcessingStatus` set by the `catch` block of `processVideo`
(which also shows a destructive toast). -/
def pipelineErrorStatus : ProcessingStatus :=
  { status := .error, message := some "An error occurred during processing" }

/-- Trace of the upload-and-run phase of `processVideo`: the requests
issued in order, how it ended, and the error surfacing (the catch block's
`setProcessingStatus` and toast). -/
structure PipelineResult where
  calls : List ApiCall
  outcome : PipelineOutcome
  uiOnError : Option ProcessingStatus
  toastShown : Bool
deriving DecidableEq, Repr

/-- The server responses the four sequential requests of `processVideo`
can receive: the upload-URL response carries `upload_url` and `video_id`,
the finalize response carries `file_uuid`, the run response carries
`agent_run_id`. -/
structure MosaicEnv where
  uploadUrlResp : FetchResult (String × String)
  putResp : FetchResult Unit
  finalizeResp : FetchResult String
  runAgentResp : FetchResult String
deriving DecidableEq, Repr

/-- `App.tsx` lines 209-278, the straight-line part of `processVideo` after
the Dropbox download: POST `/video/get-upload-url` with filename, file size
and content type `video/mp4`; PUT the blob to the returned `upload_url`;
POST `/video/finalize-upload/{video_id}`; POST `/run-agent` with the
`file_uuid` of the finalize response.  Any thrown error jumps to the
`catch` block, which sets an error status and shows a toast; nothing is
retried. -/
def processVideo (cfg : EnvConfig) (filename : String) (fileSize : Nat)
    (shortType : ShortType) (promptText : String) (env : MosaicEnv) :
    PipelineResult :=
  let c1 := ApiCall.getUploadUrl filename fileSize "video/mp4"
  match env.uploadUrlResp with
  | .error => ⟨[c1], .errored, some pipelineErrorStatus, true⟩
  | .ok (upload_url, video_id) =>
    let c2 := ApiCall.putUpload upload_url "video/mp4"
    match env.putResp with
    | .error => ⟨[c1, c2], .errored, some pipelineErrorStatus, true⟩
    | .ok _ =>
      let c3 := ApiCall.finalizeUpload video_id
      match env.finalizeResp with
      | .error => ⟨[c1, c2, c3], .errored, some pipelineErrorStatus, true⟩
      | .ok file_uuid =>
        let args := selectAgent cfg shortType promptText
        let c4 := ApiCall.runAgent file_uuid args.agentId args.prompt args.auto
        match env.runAgentResp with
        | .error => ⟨[c1, c2, c3, c4], .errored, some pipelineErrorStatus, true⟩
        | .ok runId => ⟨[c1, c2, c3, c4], .started runId, none, false⟩

/-- A tool invocation attached to an assistant message
(`state` is `call` or `result`). -/
structure ToolInvocation where
  state : String
deriving DecidableEq, Repr

/-- A chat message as the route handler sees it; `toolInvocations` is
absent (`undefined`) or a list. -/
structure ChatMessage where
  role : String
  toolInvocations : Option (List ToolInvocation)
deriving DecidableEq, Repr

/-- `route.ts` lines 75-81: an assistant message that has a
`toolInvocations` array is kept only if every invocation has state
`result`; every other message passes the filter. -/
def keepMessage (m : ChatMessage) : Bool :=
  if m.role == "assistant" && m.toolInvocations.isSome then
    (m.toolInvocations.getD []).all (fun inv => inv.state == "result")
  else
    true

/-- The filter applied to the incoming messages before `streamText`. -/
def filterMessages (ms : List ChatMessage) : List ChatMessage :=
  ms.filter keepMessage

/-- Outcome of the POST /api/chat handler: the streamed call (with the
messages actually forwarded to the model) or the 500 JSON response of the
`catch` block. -/
inductive ChatRouteResult where
  | streamed (forwarded : List ChatMessage)
  | error500
deriving DecidableEq, Repr

/-- `route.ts` `POST`: filter the messages, then try to set up the MCP
client and stream; if that throws, log and answer 500 once — no retry. -/
def chatPOST (mcpOk : Bool) (ms : List ChatMessage) : ChatRouteResult :=
  if mcpOk then .streamed (filterMessages ms) else .error500

/-- The `currentStep` values of the demo `Home` page. -/
inductive DemoStep where
  | initial
  | upload
  | caption
  | status
deriving DecidableEq, Repr

/-- Position of a step in the intended sequence. -/
def stepIdx : DemoStep → Nat
  | .initial => 0
  | .upload => 1
  | .caption => 2
  | .status => 3

/-- The part of a message the step-tracking effect looks at. -/
structure MsgView where
  role : String
  content : String
deriving DecidableEq, Repr

/-- Does `pat` occur as a contiguous run inside the list? -/
def containsSubL (pat : List Char) : List Char → Bool
  | [] => pat.isPrefixOf []
  | c :: rest => pat.isPrefixOf (c :: rest) || containsSubL pat rest

/-- Substring test standing for JS `String.prototype.includes`. -/
def containsSub (s pat : String) : Bool :=
  containsSubL pat.data s.data

/-- The step-tracking effect of `Home` (part_003 lines 46-63): look at the
last message; from `initial` move to `upload` on an assistant message with
a tsx fence; from `upload` to `caption` on an upload confirmation; from
`caption` to `status` on a processing notice; otherwise stay put. -/
def advanceStep (cur : DemoStep) (last : Option MsgView) : DemoStep :=
  match last with
  | none => cur
  | some m =>
    if cur == .initial && m.role == "assistant" && containsSub m.content "```tsx" then
      .upload
    else if cur == .upload && m.role == "assistant" &&
        containsSub m.content "uploaded successfully" then
      .caption
    else if cur == .caption && m.role == "assistant" &&
        (containsSub m.content "Processing" || containsSub m.content "may take") then
      .status
    else
      cur

/-- What one observed message does to `currentStep` once React settles:
the tracking effect has dependency array `[messages, currentStep]`, so
after `setCurrentStep` it re-runs on the same last message until the step
stops changing.  The chain has three transitions, so three runs reach the
fixpoint (`advanceStep` leaves a stable step unchanged). -/
def observeMessage (cur : DemoStep) (last : Option MsgView) : DemoStep :=
  advanceStep (advanceStep (advanceStep cur last) last) last

/-- Timer bookkeeping of the `App` component: ids of the poll interval
timers currently alive. -/
structure AppComponentState where
  activePollTimers : List Nat
deriving DecidableEq, Repr

/-- Each call of `processVideo` reaches exactly one `setInterval`
(line 281), creating one poll timer. -/
def processVideoStartTimer (s : AppComponentState) (t : Nat) : AppComponentState :=
  ⟨s.activePollTimers ++ [t]⟩

/-- `clearInterval(pollInterval)` inside the poll callback. -/
def clearPollTimer (s : AppComponentState) (t : Nat) : AppComponentState :=
  ⟨s.activePollTimers.filter (fun x => x ≠ t)⟩

/-- Unmounting `App`: its only effect (lines 47-49, the dark-mode class)
returns no cleanup, and no other code references `pollInterval` outside the
poll callback, so teardown leaves every timer alive. -/
def appUnmount (s : AppComponentState) : AppComponentState := s

/-- Whether the interval of a submitted job ever gets cleared while the
given events come in. -/
def timerCleared (runId : String) (evs : List PollEvent) : Bool :=
  (pollLoop runId evs).any (fun t => t.cleared)

/-- Timer bookkeeping of the `Chat` component: its scroll-resume timeout. -/
structure ChatComponentState where
  scrollTimeout : Option Nat
deriving DecidableEq, Repr

/-- Unmounting `Chat` (part_001 lines 73-79): the cleanup clears the
scroll timeout — the only timer any unmount cleanup in the repo touches. -/
def chatUnmountCleanup (_s : ChatComponentState) : ChatComponentState :=
  ⟨none⟩

/-! ### `Preview.transformCode` (part_002 lines 58-67)

`transformCode` runs two JS regex replacements:
`code.replace(/^import\s+.*?;?\s*$/gm, '')` and then
`code.replace(/export\s+default\s+function/, 'function')`.
The functions below reproduce the JS regex engine's behaviour for these two
patterns on the character list of the input: leftmost match, lazy `.*?`
(which cannot cross a line terminator), greedy `\s*` backtracking until `$`
(end of input or before a line terminator, `m` flag) holds, and the scan
resuming after each deleted match. -/

/-- The JS line terminators, recognised by `.`, `^` and `$` (ECMA-262
LineTerminator): LF, CR, LS, PS. -/
def isLineTerm (c : Char) : Bool :=
  c == '\n' || c == '\r' || c == '\u2028' || c == '\u2029'

/-- JS `\s` (ECMA-262 WhiteSpace and LineTerminator): tab, LF, VT, FF, CR,
space, NBSP, Ogham space, the U+2000–U+200A range, LS, PS, narrow NBSP,
math space, ideographic space, and BOM. -/
def jsWs (c : Char) : Bool :=
  c == '\t' || c == '\n' || c == '\x0b' || c == '\x0c' || c == '\r' || c == ' ' ||
  c == '\u00A0' || c == '\u1680' ||
  (decide ('\u2000' ≤ c) && decide (c ≤ '\u200A')) ||
  c == '\u2028' || c == '\u2029' || c == '\u202F' || c == '\u205F' ||
  c == '\u3000' || c == '\uFEFF'

/-- Index of the last line terminator in a list, if any. -/
def lastNLIdx : List Char → Option Nat
  | [] => none
  | c :: rest =>
    match lastNLIdx rest with
    | some i => some (i + 1)
    | none => if isLineTerm c then some 0 else none

/-- Match `\s*$` at the head of `cs`: the greedy whitespace run backtracks
to the largest length after which `$` holds (end of input, or a position
just before a line terminator). -/
def wsDollar (cs : List Char) : Option Nat :=
  let W := cs.takeWhile jsWs
  if cs.drop W.length = [] then some W.length else lastNLIdx W

/-- Match `;?\s*$` at the head of `cs` (the optional `;` is preferred,
with backtracking). -/
def tryTail : List Char → Option Nat
  | [] => wsDollar []
  | c :: rest =>
    if c = ';' then
      match wsDollar rest with
      | some n => some (n + 1)
      | none => wsDollar (c :: rest)
    else wsDollar (c :: rest)

/-- Match `.*?;?\s*$` at the head of `cs`: lazily extend the dot run
(never across a line terminator) until the tail matches. -/
def contStar : List Char → Option Nat
  | [] => tryTail []
  | c :: rest =>
    match tryTail (c :: rest) with
    | some n => some n
    | none => if isLineTerm c then none else (contStar rest).map (· + 1)

def importKw : List Char := ['i', 'm', 'p', 'o', 'r', 't']

/-- Length of the match of `^import\s+.*?;?\s*$` at a line-start position,
if it matches there.  The greedy `\s+` needs no backtracking because
`contStar` never fails (the line's end always satisfies `$`). -/
def matchImportLen (cs : List Char) : Option Nat :=
  if importKw.isPrefixOf cs then
    let rest := cs.drop 6
    let r := (rest.takeWhile jsWs).length
    if r = 0 then none
    else (contStar (rest.drop r)).map (fun k => 6 + r + k)
  else none

/-- Last character of a list, with a default for the empty list. -/
def lastCharD (d : Char) : List Char → Char
  | [] => d
  | [c] => c
  | _ :: c :: rest => lastCharD d (c :: rest)

/-- The global replace with the empty string: scan the input, and at every
line-start position delete the match of the import pattern if there is one;
the scan resumes right after the deleted text (a position is a line start
when the previous character of the original input is a line terminator).
`fuel` bounds the recursion (every step consumes at least one character). -/
def removeImportsAux : Nat → Bool → List Char → List Char
  | 0, _, cs => cs
  | _ + 1, _, [] => []
  | fuel + 1, atLS, c :: rest =>
    if atLS then
      match matchImportLen (c :: rest) with
      | some n =>
        removeImportsAux fuel (isLineTerm (lastCharD 'x' ((c :: rest).take n)))
          ((c :: rest).drop n)
      | none => c :: removeImportsAux fuel (isLineTerm c) rest
    else c :: removeImportsAux fuel (isLineTerm c) rest

/-- `code.replace(/^import\s+.*?;?\s*$/gm, '')`. -/
def removeImports (cs : List Char) : List Char :=
  removeImportsAux cs.length true cs

def exportKw : List Char := ['e', 'x', 'p', 'o', 'r', 't']

def defaultKw : List Char := ['d', 'e', 'f', 'a', 'u', 'l', 't']

def functionKw : List Char := ['f', 'u', 'n', 'c', 't', 'i', 'o', 'n']

/-- Length of the match of `export\s+default\s+function` at the head of
`cs`, if any (greedy `\s+` runs need no backtracking: `d`/`f` are not
whitespace). -/
def matchExportLen (cs : List Char) : Option Nat :=
  if exportKw.isPrefixOf cs then
    let r1cs := cs.drop 6
    let r1 := (r1cs.takeWhile jsWs).length
    if r1 = 0 then none
    else
      let dcs := r1cs.drop r1
      if defaultKw.isPrefixOf dcs then
        let r2cs := dcs.drop 7
        let r2 := (r2cs.takeWhile jsWs).length
        if r2 = 0 then none
        else if functionKw.isPrefixOf (r2cs.drop r2) then
          some (6 + r1 + 7 + r2 + 8)
        else none
      else none
  else none

/-- `code.replace(/export\s+default\s+function/, 'function')`: rewrite the
leftmost occurrence only. -/
def replaceFirstExport : List Char → List Char
  | [] => []
  | c :: rest =>
    match matchExportLen (c :: rest) with
    | some n => functionKw ++ (c :: rest).drop n
    | none => c :: replaceFirstExport rest

/-- `transformCode`: strip import statements, then rewrite the first
`export default function`. -/
def transformCode (code : String) : String :=
  ⟨replaceFirstExport (removeImports code.data)⟩

/-- Is there any match of the export pattern anywhere in the list? -/
def hasExportMatch : List Char → Bool
  | [] => false
  | c :: rest => (matchExportLen (c :: rest)).isSome || hasExportMatch rest

/-- Join lines with a newline between consecutive lines (no trailing
newline). -/
def joinLines : List (List Char) → List Char
  | [] => []
  | [l] => l
  | l :: l2 :: rest => l ++ '\n' :: joinLines (l2 :: rest)

/-- A line that makes the import pattern fire at its start: it begins with
`import`, and the keyword is followed there by whitespace (a following
line terminator counts) or by the end of the line. -/
def startsImportish (l : List Char) : Bool :=
  importKw.isPrefixOf l && ((l.drop 6).isEmpty || jsWs ((l.drop 6).headD 'x'))

/-- An import line in good standing: `import`, whitespace, and a body
holding at least one non-whitespace character. -/
def cleanImportLine (l : List Char) : Bool :=
  importKw.isPrefixOf l && jsWs ((l.drop 6).headD 'x') &&
    (l.drop 6).any (fun c => !jsWs c)

/-- Every import line is followed by a line starting with a non-whitespace
character (so the match stops at the import line's end). -/
def importFollowOkB : List (List Char) → Bool
  | [] => true
  | [_] => true
  | a :: b :: rest =>
    (!cleanImportLine a || !jsWs (b.headD ' ')) && importFollowOkB (b :: rest)

/-! ### Characterization of the import-pattern match on a single line

`TermCtx t` describes what follows the line under scrutiny: nothing, or a
newline followed by a non-whitespace character (the hypotheses of the
amended C10 put every import line in such a context). -/

def TermCtx (t : List Char) : Prop :=
  t = [] ∨ ∃ c rest, t = '\n' :: c :: rest ∧ jsWs c = false

/-- Which remainders `d` make `;?\s*$` succeed. -/
def tailOk : List Char → Bool
  | [] => true
  | c :: rest => (c :: rest).all jsWs || ((c == ';') && rest.all jsWs)

/-- How the amended C10 describes one line after the first replace: every
line matching the pattern keeps only its newline, the rest is untouched. -/
def blankLine (l : List Char) : List Char :=
  if cleanImportLine l then [] else l

/-! ## Supporting lemmas -/

lemma pollTick_ok_cleared (runId : String) (st : RunStatus) (p : Option Nat)
    (outs : FetchResult (Option (List Output))) :
    (pollTick runId (.ok (st, p)) outs).cleared = isTerminalStatus st := by
  cases st <;> cases outs <;> rfl

lemma pollLoop_cons (runId : String) (e : PollEvent) (evs : List PollEvent) :
    pollLoop runId (e :: evs) =
      if (pollTick runId e.statusResp e.outputsResp).cleared
      then [pollTick runId e.statusResp e.outputsResp]
      else pollTick runId e.statusResp e.outputsResp :: pollLoop runId evs := rfl

lemma takeWhile_append_all (d t : List Char) (hd : d.all jsWs = true) :
    (d ++ t).takeWhile jsWs = d ++ t.takeWhile jsWs := by
  induction d with
  | nil => rfl
  | cons c d ih =>
    rw [List.all_cons] at hd
    obtain ⟨h1, h2⟩ := Bool.and_eq_true_iff.mp hd
    simp [List.takeWhile_cons, h1, ih h2]

lemma takeWhile_append_stop (d t : List Char)
    (hd : d.any (fun c => !jsWs c) = true) :
    (d ++ t).takeWhile jsWs = d.takeWhile jsWs := by
  induction d with
  | nil => simp at hd
  | cons c d ih =>
    rw [List.any_cons] at hd
    by_cases hc : jsWs c = true
    · have hd2 : d.any (fun c => !jsWs c) = true := by
        rcases Bool.or_eq_true_iff.mp hd with h | h
        · rw [hc] at h; simp at h
        · exact h
      simp [List.takeWhile_cons, hc, ih hd2]
    · simp only [Bool.not_eq_true] at hc
      simp [List.takeWhile_cons, hc]

lemma takeWhile_length_lt (d : List Char)
    (hd : d.any (fun c => !jsWs c) = true) :
    (d.takeWhile jsWs).length < d.length := by
  induction d with
  | nil => simp at hd
  | cons c d ih =>
    rw [List.any_cons] at hd
    by_cases hc : jsWs c = true
    · have hd2 : d.any (fun c => !jsWs c) = true := by
        rcases Bool.or_eq_true_iff.mp hd with h | h
        · rw [hc] at h; simp at h
        · exact h
      simpa [List.takeWhile_cons, hc] using Nat.succ_lt_succ (ih hd2)
    · simp only [Bool.not_eq_true] at hc
      simp [List.takeWhile_cons, hc]

lemma lastNLIdx_append_nl (d : List Char) : lastNLIdx (d ++ ['\n']) = some d.length := by
  induction d with
  | nil => simp [lastNLIdx, isLineTerm]
  | cons c d ih => simp [lastNLIdx, ih]

lemma lastNLIdx_none (d : List Char)
    (hd : d.all (fun c => !isLineTerm c) = true) : lastNLIdx d = none := by
  induction d with
  | nil => rfl
  | cons c d ih =>
    rw [List.all_cons] at hd
    obtain ⟨h1, h2⟩ := Bool.and_eq_true_iff.mp hd
    rw [Bool.not_eq_true'] at h1
    simp [lastNLIdx, ih h2, h1]

lemma all_sub {p : Char → Bool} (l1 l2 : List Char) (hsub : ∀ c ∈ l1, c ∈ l2)
    (h : l2.all p = true) : l1.all p = true := by
  rw [List.all_eq_true] at h ⊢
  exact fun c hc => h c (hsub c hc)

/-- `\s*$` on `d ++ t`: succeeds exactly when `d` is pure whitespace, and
then stops right at the end of `d`. -/
lemma wsDollar_chunk (d t : List Char)
    (hnl : d.all (fun c => !isLineTerm c) = true) (ht : TermCtx t) :
    wsDollar (d ++ t) = if d.all jsWs then some d.length else none := by
  by_cases hall : d.all jsWs = true
  · rw [if_pos hall]
    rcases ht with rfl | ⟨c, rest, rfl, hc⟩
    · have hself : List.takeWhile jsWs d = d :=
        List.takeWhile_eq_self_iff.mpr fun c hc => (List.all_eq_true.mp hall) c hc
      simp [wsDollar, List.append_nil, hself, List.drop_length]
    · have hW : ((d ++ '\n' :: c :: rest).takeWhile jsWs) = d ++ ['\n'] := by
        rw [takeWhile_append_all d _ hall]
        have h2 : ('\n' :: c :: rest).takeWhile jsWs = ['\n'] := by
          rw [List.takeWhile_cons, if_pos (by decide), List.takeWhile_cons, hc]
          simp
        rw [h2]
      have hdrop : (d ++ '\n' :: c :: rest).drop (d ++ ['\n']).length = c :: rest := by
        have h3 : d ++ '\n' :: c :: rest = (d ++ ['\n']) ++ c :: rest := by simp
        rw [h3, List.drop_left]
      simp only [wsDollar, hW, hdrop]
      rw [if_neg (by simp), lastNLIdx_append_nl]
  · rw [if_neg hall]
    have hany : d.any (fun c => !jsWs c) = true := by
      rw [List.all_eq_true] at hall
      push_neg at hall
      obtain ⟨c, hc, hcp⟩ := hall
      rw [List.any_eq_true]
      refine ⟨c, hc, ?_⟩
      cases hjs : jsWs c
      · rfl
      · exact absurd hjs hcp
    have hlt := takeWhile_length_lt d hany
    have hne : (d ++ t).drop (d.takeWhile jsWs).length ≠ [] := by
      intro h
      have h4 := List.drop_eq_nil_iff.mp h
      rw [List.length_append] at h4
      omega
    simp only [wsDollar, takeWhile_append_stop d t hany]
    rw [if_neg hne]
    exact lastNLIdx_none _ (all_sub _ d
      (fun c hc => (List.takeWhile_prefix jsWs).subset hc) hnl)

lemma tryTail_semi (X : List Char) :
    tryTail (';' :: X)
      = (match wsDollar X with
         | some n => some (n + 1)
         | none => wsDollar (';' :: X)) := by
  simp [tryTail]

lemma tryTail_cons_ne (c : Char) (X : List Char) (h : ¬ c = ';') :
    tryTail (c :: X) = wsDollar (c :: X) := by
  simp [tryTail, h]

/-- `;?\s*$` on `d ++ t`: succeeds exactly when `d` is whitespace after an
optional leading semicolon, and then consumes exactly `d`. -/
lemma tryTail_chunk (d t : List Char)
    (hnl : d.all (fun c => !isLineTerm c) = true) (ht : TermCtx t) :
    tryTail (d ++ t) = if tailOk d then some d.length else none := by
  rcases d with _ | ⟨a, d2⟩
  · show tryTail t = if tailOk [] then some (List.length []) else none
    rw [show tailOk [] = true from rfl, if_pos rfl]
    rcases ht with rfl | ⟨c, rest, rfl, hc⟩
    · simp [tryTail, wsDollar, lastNLIdx]
    · rw [tryTail_cons_ne _ _ (by decide)]
      have h0 := wsDollar_chunk [] ('\n' :: c :: rest) (by simp)
        (Or.inr ⟨c, rest, rfl, hc⟩)
      simpa using h0
  · rw [List.all_cons] at hnl
    obtain ⟨ha, hd2⟩ := Bool.and_eq_true_iff.mp hnl
    have hnl2 : ((a :: d2).all fun c => !isLineTerm c) = true := by
      rw [List.all_cons, ha, hd2]; rfl
    by_cases haq : a = ';'
    · subst haq
      rw [show (';' :: d2) ++ t = ';' :: (d2 ++ t) from rfl, tryTail_semi,
        wsDollar_chunk d2 t hd2 ht]
      by_cases h2 : d2.all jsWs = true
      · have hok : tailOk (';' :: d2) = true := by
          simp [tailOk, h2]
        rw [if_pos h2, hok, if_pos rfl]
        rfl
      · have hworse : (';' :: d2).all jsWs = false := by
          rw [List.all_cons, show jsWs ';' = false from by decide, Bool.false_and]
        have hws := wsDollar_chunk (';' :: d2) t hnl2 ht
        rw [hworse, if_neg (by simp),
          show (';' :: d2) ++ t = ';' :: (d2 ++ t) from rfl] at hws
        have hok : tailOk (';' :: d2) = false := by
          simp only [tailOk, hworse, Bool.false_or, beq_self_eq_true, Bool.true_and]
          cases hb : d2.all jsWs
          · rfl
          · exact absurd hb h2
        rw [if_neg h2, hok, if_neg (by simp)]
        exact hws
    · rw [show (a :: d2) ++ t = a :: (d2 ++ t) from rfl, tryTail_cons_ne a _ haq]
      have hws := wsDollar_chunk (a :: d2) t hnl2 ht
      rw [show (a :: d2) ++ t = a :: (d2 ++ t) from rfl] at hws
      rw [hws]
      have hok : tailOk (a :: d2) = (a :: d2).all jsWs := by
        simp only [tailOk]
        rw [show (a == ';') = false from beq_eq_false_iff_ne.mpr haq,
          Bool.false_and, Bool.or_false]
      rw [hok]

/-- `.*?;?\s*$` on a line remainder followed by a terminator context:
always succeeds, consuming the remainder exactly. -/
lemma contStar_chunk (e t : List Char)
    (hnl : e.all (fun c => !isLineTerm c) = true) (ht : TermCtx t) :
    contStar (e ++ t) = some e.length := by
  induction e with
  | nil =>
    rw [List.nil_append]
    have h0 := tryTail_chunk [] t (by simp) ht
    rw [List.nil_append, show tailOk [] = true from rfl, if_pos rfl] at h0
    rcases t with _ | ⟨c, rest⟩
    · exact h0
    · simp only [contStar]
      rw [h0]
  | cons a e2 ih =>
    rw [List.all_cons] at hnl
    obtain ⟨ha, he2⟩ := Bool.and_eq_true_iff.mp hnl
    rw [show (a :: e2) ++ t = a :: (e2 ++ t) from rfl]
    simp only [contStar]
    have htt := tryTail_chunk (a :: e2) t (by rw [List.all_cons, ha, he2]; rfl) ht
    rw [show (a :: e2) ++ t = a :: (e2 ++ t) from rfl] at htt
    by_cases hok : tailOk (a :: e2) = true
    · rw [htt, if_pos hok]
    · rw [htt, if_neg hok]
      have ha2 : isLineTerm a = false := by
        cases hb : isLineTerm a
        · rfl
        · rw [hb] at ha; exact absurd ha (by simp)
      show (if isLineTerm a then none else (contStar (e2 ++ t)).map (· + 1))
          = some (a :: e2).length
      rw [ha2, if_neg (by simp), ih he2]
      rfl

lemma isPrefixOf_append_self (kw x : List Char) : kw.isPrefixOf (kw ++ x) = true := by
  induction kw with
  | nil => cases x <;> rfl
  | cons k kw ih => simp [List.isPrefixOf, ih]

lemma isPrefixOf_decomp (kw l : List Char) (h : kw.isPrefixOf l = true) :
    l = kw ++ l.drop kw.length := by
  induction kw generalizing l with
  | nil => simp
  | cons k kw ih =>
    rcases l with _ | ⟨a, l2⟩
    · simp [List.isPrefixOf] at h
    · rw [List.isPrefixOf] at h
      obtain ⟨h1, h2⟩ := Bool.and_eq_true_iff.mp h
      have hk : k = a := by
        rwa [beq_iff_eq] at h1
      subst hk
      simpa using ih l2 h2

lemma isPrefixOf_append_nl (kw l rest : List Char)
    (hkw : kw.all (fun c => !isLineTerm c) = true) :
    kw.isPrefixOf (l ++ '\n' :: rest) = kw.isPrefixOf l := by
  induction kw generalizing l with
  | nil => cases l <;> rfl
  | cons k kw ih =>
    rw [List.all_cons] at hkw
    obtain ⟨h1, h2⟩ := Bool.and_eq_true_iff.mp hkw
    rcases l with _ | ⟨a, l2⟩
    · rw [List.nil_append,
        show (k :: kw).isPrefixOf ('\n' :: rest) = (k == '\n' && kw.isPrefixOf rest)
          from rfl]
      have hk : (k == '\n') = false := by
        cases hb : isLineTerm k
        · rw [beq_eq_false_iff_ne]
          intro hkq
          subst hkq
          simp [isLineTerm] at hb
        · rw [hb] at h1; exact absurd h1 (by simp)
      rw [hk, Bool.false_and]
      rfl
    · rw [show (a :: l2) ++ '\n' :: rest = a :: (l2 ++ '\n' :: rest) from rfl,
        show (k :: kw).isPrefixOf (a :: (l2 ++ '\n' :: rest))
          = (k == a && kw.isPrefixOf (l2 ++ '\n' :: rest)) from rfl,
        show (k :: kw).isPrefixOf (a :: l2) = (k == a && kw.isPrefixOf l2) from rfl,
        ih l2 h2]

lemma importKw_length : importKw.length = 6 := rfl

/-- Flattened unfolding of `matchImportLen`. -/
lemma matchImportLen_eq (cs : List Char) :
    matchImportLen cs =
      if importKw.isPrefixOf cs then
        if ((cs.drop 6).takeWhile jsWs).length = 0 then none
        else (contStar ((cs.drop 6).drop ((cs.drop 6).takeWhile jsWs).length)).map
          (fun k => 6 + ((cs.drop 6).takeWhile jsWs).length + k)
      else none := rfl

/-- The match length of the import pattern on a clean import line in a
terminator context: exactly the line. -/
lemma matchImportLen_clean (l t : List Char) (hcl : cleanImportLine l = true)
    (hnl : l.all (fun c => !isLineTerm c) = true) (ht : TermCtx t) :
    matchImportLen (l ++ t) = some l.length := by
  unfold cleanImportLine at hcl
  obtain ⟨hcl12, hany⟩ := Bool.and_eq_true_iff.mp hcl
  obtain ⟨hpre, hws⟩ := Bool.and_eq_true_iff.mp hcl12
  have hdecomp := isPrefixOf_decomp importKw l hpre
  set m := l.drop importKw.length with hm
  have hlm : l = importKw ++ m := hdecomp
  have hdrop6 : l.drop 6 = m := by rw [importKw_length] at hm; rw [hm]
  rw [hdrop6] at hws hany
  have hpre2 : importKw.isPrefixOf (l ++ t) = true := by
    rw [hlm, List.append_assoc]
    exact isPrefixOf_append_self importKw (m ++ t)
  have hdroplt : (l ++ t).drop 6 = m ++ t := by
    rw [hlm, List.append_assoc, show (6 : Nat) = importKw.length from rfl,
      List.drop_left]
  have htw : (m ++ t).takeWhile jsWs = m.takeWhile jsWs :=
    takeWhile_append_stop m t hany
  have hmne : ∃ c m2, m = c :: m2 ∧ jsWs c = true := by
    rcases m with _ | ⟨c, m2⟩
    · simp only [List.headD] at hws
      exact absurd hws (by decide)
    · exact ⟨c, m2, rfl, by simpa [List.headD] using hws⟩
  obtain ⟨c, m2, hmc, hcws⟩ := hmne
  have hr : (m.takeWhile jsWs).length ≠ 0 := by
    rw [hmc, List.takeWhile_cons, hcws]
    simp
  have hdropr : (m ++ t).drop (m.takeWhile jsWs).length = m.dropWhile jsWs ++ t := by
    conv_lhs =>
      rw [show m ++ t = m.takeWhile jsWs ++ (m.dropWhile jsWs ++ t) from by
        rw [← List.append_assoc, List.takeWhile_append_dropWhile]]
    exact List.drop_left _ _
  have hmnl : m.all (fun c => !isLineTerm c) = true := by
    refine all_sub _ l ?_ hnl
    intro c hc
    rw [hlm]
    exact List.mem_append_right _ hc
  have hcont := contStar_chunk (m.dropWhile jsWs) t
    (all_sub _ m (fun c hc => (List.dropWhile_sublist jsWs (l := m)).subset hc) hmnl) ht
  have hlen : 6 + (m.takeWhile jsWs).length + (m.dropWhile jsWs).length = l.length := by
    have hlen2 := congrArg List.length (List.takeWhile_append_dropWhile jsWs m)
    rw [List.length_append] at hlen2
    rw [hlm, List.length_append, importKw_length]
    omega
  rw [matchImportLen_eq, hpre2, if_pos rfl, hdroplt, htw, if_neg hr, hdropr, hcont]
  simp [hlen]

/-- The import pattern does not match at the start of a line that is not
`import`-plus-whitespace-ish. -/
lemma matchImportLen_not_importish (l t : List Char)
    (hni : startsImportish l = false)
    (ht : t = [] ∨ ∃ rest, t = '\n' :: rest) :
    matchImportLen (l ++ t) = none := by
  have hpre : importKw.isPrefixOf (l ++ t) = importKw.isPrefixOf l := by
    rcases ht with rfl | ⟨rest, rfl⟩
    · rw [List.append_nil]
    · exact isPrefixOf_append_nl importKw l rest (by decide)
  by_cases hp : importKw.isPrefixOf l = true
  · unfold startsImportish at hni
    rw [hp, Bool.true_and] at hni
    rw [Bool.or_eq_false_iff] at hni
    obtain ⟨hne, hhead⟩ := hni
    have hm : ∃ c m2, l.drop 6 = c :: m2 ∧ jsWs c = false := by
      rcases hd : l.drop 6 with _ | ⟨c, m2⟩
      · rw [hd] at hne; simp [List.isEmpty] at hne
      · rw [hd] at hhead
        exact ⟨c, m2, rfl, by simpa [List.headD] using hhead⟩
    obtain ⟨c, m2, hd6, hcws⟩ := hm
    have hdecomp := isPrefixOf_decomp importKw l hp
    have hdroplt : (l ++ t).drop 6 = c :: (m2 ++ t) := by
      conv_lhs => rw [hdecomp]
      rw [List.append_assoc, show (6 : Nat) = importKw.length from rfl, List.drop_left,
        show l.drop importKw.length = l.drop 6 from rfl, hd6]
      rfl
    have htw : ((l ++ t).drop 6).takeWhile jsWs = [] := by
      rw [hdroplt, List.takeWhile_cons, hcws]
      simp
    rw [matchImportLen_eq, hpre, hp, if_pos rfl, htw]
    simp
  · rw [Bool.not_eq_true] at hp
    rw [matchImportLen_eq, hpre, hp]
    simp

lemma matchImportLen_pos (cs : List Char) (n : Nat)
    (h : matchImportLen cs = some n) : 1 ≤ n := by
  rw [matchImportLen_eq] at h
  by_cases hp : importKw.isPrefixOf cs = true
  · rw [hp, if_pos rfl] at h
    by_cases hr : ((cs.drop 6).takeWhile jsWs).length = 0
    · rw [if_pos hr] at h; exact absurd h (by simp)
    · rw [if_neg hr] at h
      rcases hk : contStar ((cs.drop 6).drop ((cs.drop 6).takeWhile jsWs).length) with
        _ | k
      · rw [hk] at h; exact absurd h (by simp)
      · rw [hk] at h
        simp only [Option.map] at h
        injection h with h
        omega
  · rw [Bool.not_eq_true] at hp
    rw [hp] at h
    exact absurd h (by simp)

lemma aux_nil (fuel : Nat) (b : Bool) : removeImportsAux fuel b [] = [] := by
  cases fuel <;> rfl

lemma aux_false_cons (fuel : Nat) (c : Char) (rest : List Char) :
    removeImportsAux (fuel + 1) false (c :: rest)
      = c :: removeImportsAux fuel (isLineTerm c) rest := rfl

lemma aux_true_cons_none (fuel : Nat) (c : Char) (rest : List Char)
    (h : matchImportLen (c :: rest) = none) :
    removeImportsAux (fuel + 1) true (c :: rest)
      = c :: removeImportsAux fuel (isLineTerm c) rest := by
  simp [removeImportsAux, h]

lemma aux_true_cons_some (fuel : Nat) (c : Char) (rest : List Char) (n : Nat)
    (h : matchImportLen (c :: rest) = some n) :
    removeImportsAux (fuel + 1) true (c :: rest)
      = removeImportsAux fuel (isLineTerm (lastCharD 'x' ((c :: rest).take n)))
          ((c :: rest).drop n) := by
  simp [removeImportsAux, h]

/-- The scanner's result does not depend on the fuel, once the fuel covers
the input length. -/
lemma aux_fuel_irrel (F : Nat) : ∀ (G : Nat) (b : Bool) (cs : List Char),
    cs.length ≤ F → cs.length ≤ G →
    removeImportsAux F b cs = removeImportsAux G b cs := by
  induction F with
  | zero =>
    intro G b cs hF hG
    have : cs = [] := List.length_eq_zero.mp (Nat.le_zero.mp hF)
    subst this
    rw [aux_nil, aux_nil]
  | succ F ih =>
    intro G b cs hF hG
    rcases cs with _ | ⟨c, rest⟩
    · rw [aux_nil, aux_nil]
    · rcases G with _ | G
      · simp at hG
      · rcases b with _ | _
        · rw [aux_false_cons, aux_false_cons,
            ih G _ rest (by simpa using Nat.le_of_succ_le_succ (by simpa using hF))
              (by simpa using Nat.le_of_succ_le_succ (by simpa using hG))]
        · rcases hm : matchImportLen (c :: rest) with _ | n
          · rw [aux_true_cons_none F c rest hm, aux_true_cons_none G c rest hm,
              ih G _ rest (by simp at hF ⊢; omega) (by simp at hG ⊢; omega)]
          · have hn := matchImportLen_pos _ _ hm
            rw [aux_true_cons_some F c rest n hm, aux_true_cons_some G c rest n hm,
              ih G _ _ ?h1 ?h2]
            case h1 => simp at hF ⊢; omega
            case h2 => simp at hG ⊢; omega

lemma lastCharD_cons_cons (d a b : Char) (l : List Char) :
    lastCharD d (a :: b :: l) = lastCharD d (b :: l) := rfl

lemma lastCharD_not_lineTerm (l : List Char) (hne : l ≠ [])
    (hnl : l.all (fun c => !isLineTerm c) = true) :
    isLineTerm (lastCharD 'x' l) = false := by
  induction l with
  | nil => exact absurd rfl hne
  | cons a l2 ih =>
    rw [List.all_cons] at hnl
    obtain ⟨h1, h2⟩ := Bool.and_eq_true_iff.mp hnl
    rcases l2 with _ | ⟨b, l3⟩
    · show isLineTerm a = false
      cases hb : isLineTerm a
      · rfl
      · rw [hb] at h1; exact absurd h1 (by simp)
    · rw [lastCharD_cons_cons]
      exact ih (by simp) h2

/-- Copying a run of non-terminator characters while not at a line start. -/
lemma aux_copy_noLS (l : List Char) : ∀ (t : List Char) (fuel : Nat),
    l.all (fun c => !isLineTerm c) = true →
    removeImportsAux (l.length + fuel) false (l ++ t)
      = l ++ removeImportsAux fuel false t := by
  induction l with
  | nil => intro t fuel _; simp
  | cons c l2 ih =>
    intro t fuel hnl
    rw [List.all_cons] at hnl
    obtain ⟨h1, h2⟩ := Bool.and_eq_true_iff.mp hnl
    have hc : isLineTerm c = false := by
      cases hb : isLineTerm c
      · rfl
      · rw [hb] at h1; exact absurd h1 (by simp)
    have harith : (c :: l2).length + fuel = (l2.length + fuel) + 1 := by
      simp [List.length_cons]
      omega
    rw [harith, show (c :: l2) ++ t = c :: (l2 ++ t) from rfl, aux_false_cons, hc,
      ih t fuel h2]
    rfl

lemma cleanImportLine_ne_nil (l : List Char) (hcl : cleanImportLine l = true) :
    l ≠ [] := by
  intro h
  subst h
  exact absurd hcl (by decide)

/-- A clean import line followed by a newline and a non-whitespace
character is blanked: only its newline survives. -/
lemma rm_import_line (l : List Char) (c2 : Char) (rest : List Char)
    (hcl : cleanImportLine l = true) (hnl : l.all (fun c => !isLineTerm c) = true)
    (hc2 : jsWs c2 = false) :
    removeImports (l ++ '\n' :: c2 :: rest) = '\n' :: removeImports (c2 :: rest) := by
  have hm := matchImportLen_clean l ('\n' :: c2 :: rest) hcl hnl
    (Or.inr ⟨c2, rest, rfl, hc2⟩)
  rcases l with _ | ⟨a, l2⟩
  · exact absurd rfl (cleanImportLine_ne_nil [] hcl)
  · show removeImportsAux ((a :: l2) ++ '\n' :: c2 :: rest).length true
      ((a :: l2) ++ '\n' :: c2 :: rest) = _
    have hN : ((a :: l2) ++ '\n' :: c2 :: rest).length
        = (l2 ++ '\n' :: c2 :: rest).length + 1 := by simp
    rw [hN, show (a :: l2) ++ '\n' :: c2 :: rest = a :: (l2 ++ '\n' :: c2 :: rest)
      from rfl]
    rw [aux_true_cons_some _ _ _ _ (by
      rw [show a :: (l2 ++ '\n' :: c2 :: rest) = (a :: l2) ++ '\n' :: c2 :: rest
        from rfl]
      exact hm)]
    rw [show a :: (l2 ++ '\n' :: c2 :: rest) = (a :: l2) ++ '\n' :: c2 :: rest
      from rfl, List.take_left, List.drop_left]
    rw [lastCharD_not_lineTerm (a :: l2) (by simp) hnl]
    have hF : (l2 ++ '\n' :: c2 :: rest).length = (l2.length + rest.length + 1) + 1 := by
      simp
      omega
    rw [hF, aux_false_cons, show isLineTerm '\n' = true from rfl]
    show _ = '\n' :: removeImportsAux (c2 :: rest).length true (c2 :: rest)
    rw [aux_fuel_irrel (l2.length + rest.length + 1) (c2 :: rest).length true
      (c2 :: rest) (by simp [Nat.le_add_left]) (by simp)]

/-- A clean import line at the end of the input is deleted entirely. -/
lemma rm_import_last (l : List Char) (hcl : cleanImportLine l = true)
    (hnl : l.all (fun c => !isLineTerm c) = true) :
    removeImports l = [] := by
  have hm := matchImportLen_clean l [] hcl hnl (Or.inl rfl)
  rw [List.append_nil] at hm
  rcases l with _ | ⟨a, l2⟩
  · exact absurd rfl (cleanImportLine_ne_nil [] hcl)
  · show removeImportsAux (a :: l2).length true (a :: l2) = []
    rw [show (a :: l2).length = l2.length + 1 from rfl,
      aux_true_cons_some _ _ _ _ hm,
      show (a :: l2).length = l2.length + 1 from rfl]
    rw [List.drop_eq_nil_iff.mpr (by simp), aux_nil]

/-- A line at which the pattern does not fire is copied unchanged, along
with its newline. -/
lemma rm_nonimport_line (l rest : List Char)
    (hnl : l.all (fun c => !isLineTerm c) = true)
    (hni : startsImportish l = false) :
    removeImports (l ++ '\n' :: rest) = l ++ '\n' :: removeImports rest := by
  have hm := matchImportLen_not_importish l ('\n' :: rest) hni (Or.inr ⟨rest, rfl⟩)
  rcases l with _ | ⟨a, l2⟩
  · rw [List.nil_append] at hm ⊢
    show removeImportsAux ('\n' :: rest).length true ('\n' :: rest) = _
    rw [show ('\n' :: rest).length = rest.length + 1 from rfl,
      aux_true_cons_none _ _ _ hm, show isLineTerm '\n' = true from rfl]
    rfl
  · rw [List.all_cons] at hnl
    obtain ⟨h1, h2⟩ := Bool.and_eq_true_iff.mp hnl
    have ha : isLineTerm a = false := by
      cases hb : isLineTerm a
      · rfl
      · rw [hb] at h1; exact absurd h1 (by simp)
    show removeImportsAux ((a :: l2) ++ '\n' :: rest).length true
      ((a :: l2) ++ '\n' :: rest) = _
    have hN : ((a :: l2) ++ '\n' :: rest).length
        = (l2 ++ '\n' :: rest).length + 1 := by simp
    rw [hN, show (a :: l2) ++ '\n' :: rest = a :: (l2 ++ '\n' :: rest) from rfl,
      aux_true_cons_none _ _ _ (by
        rw [show a :: (l2 ++ '\n' :: rest) = (a :: l2) ++ '\n' :: rest from rfl]
        exact hm), ha]
    have hF : (l2 ++ '\n' :: rest).length = l2.length + (rest.length + 1) := by
      simp
    rw [hF, aux_copy_noLS l2 ('\n' :: rest) (rest.length + 1) h2, aux_false_cons,
      show isLineTerm '\n' = true from rfl]
    rfl

/-- A non-matching line at the end of the input is copied unchanged. -/
lemma rm_nonimport_last (l : List Char)
    (hnl : l.all (fun c => !isLineTerm c) = true)
    (hni : startsImportish l = false) :
    removeImports l = l := by
  have hm := matchImportLen_not_importish l [] hni (Or.inl rfl)
  rw [List.append_nil] at hm
  rcases l with _ | ⟨a, l2⟩
  · rfl
  · rw [List.all_cons] at hnl
    obtain ⟨h1, h2⟩ := Bool.and_eq_true_iff.mp hnl
    have ha : isLineTerm a = false := by
      cases hb : isLineTerm a
      · rfl
      · rw [hb] at h1; exact absurd h1 (by simp)
    show removeImportsAux (a :: l2).length true (a :: l2) = a :: l2
    rw [show (a :: l2).length = l2.length + 1 from rfl, aux_true_cons_none _ _ _ hm, ha]
    have := aux_copy_noLS l2 [] 0 h2
    rw [List.append_nil, Nat.add_zero, aux_nil, List.append_nil] at this
    rw [this]

lemma joinLines_cons_cons (a b : List Char) (t : List (List Char)) :
    joinLines (a :: b :: t) = a ++ '\n' :: joinLines (b :: t) := rfl

lemma clean_implies_importish (l : List Char) (h : cleanImportLine l = true) :
    startsImportish l = true := by
  unfold cleanImportLine at h
  obtain ⟨h12, _⟩ := Bool.and_eq_true_iff.mp h
  obtain ⟨hpre, hws⟩ := Bool.and_eq_true_iff.mp h12
  unfold startsImportish
  rw [hpre, hws]
  simp

/-- The import-statement replace, line by line: under the amended claim's
hypotheses it blanks exactly the import lines, keeping all newlines and
every other character. -/
lemma removeImports_lines : ∀ (ls : List (List Char)),
    (ls.all fun l => l.all fun c => !isLineTerm c) = true →
    (ls.all fun l => !startsImportish l || cleanImportLine l) = true →
    importFollowOkB ls = true →
    removeImports (joinLines ls) = joinLines (ls.map blankLine) := by
  intro ls
  induction ls with
  | nil => intro _ _ _; rfl
  | cons l ls ih =>
    intro h1 h2 h3
    rw [List.all_cons] at h1 h2
    obtain ⟨h1l, h1s⟩ := Bool.and_eq_true_iff.mp h1
    obtain ⟨h2l, h2s⟩ := Bool.and_eq_true_iff.mp h2
    rcases ls with _ | ⟨l2, ls2⟩
    · by_cases hb : cleanImportLine l = true
      · rw [show joinLines [l] = l from rfl, rm_import_last l hb h1l]
        simp [joinLines, blankLine, hb]
      · have hni : startsImportish l = false := by
          rcases Bool.or_eq_true_iff.mp h2l with h | h
          · cases hsb : startsImportish l
            · rfl
            · rw [hsb] at h; exact absurd h (by simp)
          · exact absurd h hb
        rw [show joinLines [l] = l from rfl, rm_nonimport_last l h1l hni]
        simp [joinLines, blankLine, hb]
    · have h3' := h3
      unfold importFollowOkB at h3'
      obtain ⟨h3h, h3t⟩ := Bool.and_eq_true_iff.mp h3'
      have ihr := ih h1s h2s h3t
      rw [joinLines_cons_cons]
      by_cases hb : cleanImportLine l = true
      · have hhead : jsWs (l2.headD ' ') = false := by
          rcases Bool.or_eq_true_iff.mp h3h with h | h
          · rw [hb] at h; exact absurd h (by simp)
          · cases hj : jsWs (l2.headD ' ')
            · rfl
            · rw [hj] at h; exact absurd h (by simp)
        rcases l2 with _ | ⟨c2, l2t⟩
        · exact absurd hhead (by decide)
        · have hc2 : jsWs c2 = false := by simpa [List.headD] using hhead
          have hK : ∃ K, joinLines ((c2 :: l2t) :: ls2) = c2 :: K := by
            rcases ls2 with _ | ⟨l3, ls3⟩
            · exact ⟨l2t, rfl⟩
            · exact ⟨l2t ++ '\n' :: joinLines (l3 :: ls3), rfl⟩
          obtain ⟨K, hKeq⟩ := hK
          rw [hKeq, rm_import_line l c2 K hb h1l hc2, ← hKeq, ihr]
          conv_rhs => rw [List.map_cons, List.map_cons, joinLines_cons_cons]
          rw [show blankLine l = [] from by unfold blankLine; rw [if_pos hb],
            List.nil_append]
          rfl
      · have hni : startsImportish l = false := by
          rcases Bool.or_eq_true_iff.mp h2l with h | h
          · cases hsb : startsImportish l
            · rfl
            · rw [hsb] at h; exact absurd h (by simp)
          · exact absurd h hb
        rw [rm_nonimport_line l _ h1l hni, ihr]
        conv_rhs => rw [List.map_cons, List.map_cons, joinLines_cons_cons]
        rw [show blankLine l = l from by unfold blankLine; rw [if_neg hb]]
        rfl

lemma blank_id (ls : List (List Char))
    (h : (ls.all fun l => !cleanImportLine l) = true) :
    ls.map blankLine = ls := by
  induction ls with
  | nil => rfl
  | cons l ls ih =>
    rw [List.all_cons] at h
    obtain ⟨h1, h2⟩ := Bool.and_eq_true_iff.mp h
    have hb : cleanImportLine l = false := by
      cases hc : cleanImportLine l
      · rfl
      · rw [hc] at h1; exact absurd h1 (by simp)
    rw [List.map_cons, ih h2, show blankLine l = l from by
      unfold blankLine; rw [hb]; simp]

lemma noExport_id (cs : List Char) (h : hasExportMatch cs = false) :
    replaceFirstExport cs = cs := by
  induction cs with
  | nil => rfl
  | cons c rest ih =>
    unfold hasExportMatch at h
    obtain ⟨h1, h2⟩ := Bool.or_eq_false_iff.mp h
    have hm : matchExportLen (c :: rest) = none := by
      rcases hk : matchExportLen (c :: rest) with _ | k
      · rfl
      · rw [hk] at h1; exact absurd h1 (by simp)
    show (match matchExportLen (c :: rest) with
          | some n => functionKw ++ (c :: rest).drop n
          | none => c :: replaceFirstExport rest) = c :: rest
    rw [hm, ih h2]

/-! ## Claims -/

/-- C1: the poll loop stops exactly at a terminal status.  A tick that
observes `success` or `failed` clears the interval, and the loop issues no
further status fetch after it; a tick that observes a non-terminal status
leaves the interval running and the loop goes on with the next event. -/
theorem poll_stops_iff_terminal (runId : String) (st : RunStatus) (p : Option Nat)
    (outs : FetchResult (Option (List Output))) (evs : List PollEvent) :
    (pollTick runId (.ok (st, p)) outs).cleared = isTerminalStatus st
    ∧ pollLoop runId (⟨.ok (st, p), outs⟩ :: evs)
        = (if isTerminalStatus st then [pollTick runId (.ok (st, p)) outs]
           else pollTick runId (.ok (st, p)) outs :: pollLoop runId evs) := by
  refine ⟨pollTick_ok_cleared runId st p outs, ?_⟩
  rw [pollLoop_cons]
  simp only [pollTick_ok_cleared]

/-- C2: `processVideo` issues, in order, the upload-URL request (with
filename, file size and content type), the PUT to the returned
`upload_url`, the finalize call on the returned `video_id`, and the
run-agent call — whose file id is exactly the `file_uuid` of the finalize
response. -/
theorem processVideo_two_phase_upload (cfg : EnvConfig) (filename : String)
    (fileSize : Nat) (shortType : ShortType) (promptText : String)
    (upload_url video_id file_uuid agent_run_id : String) :
    processVideo cfg filename fileSize shortType promptText
        ⟨.ok (upload_url, video_id), .ok (), .ok file_uuid, .ok agent_run_id⟩
      = { calls := [ .getUploadUrl filename fileSize "video/mp4",
                     .putUpload upload_url "video/mp4",
                     .finalizeUpload video_id,
                     .runAgent file_uuid (selectAgent cfg shortType promptText).agentId
                       (selectAgent cfg shortType promptText).prompt
                       (selectAgent cfg shortType promptText).auto ],
          outcome := .started agent_run_id,
          uiOnError := none,
          toastShown := false } := rfl

/-- C4: as long as every status poll succeeds with a non-terminal status,
the loop never clears the interval and polls once per tick, for any number
of ticks — no client-side timeout or tick bound exists. -/
theorem poll_unbounded_without_terminal (runId : String) (evs : List PollEvent)
    (h : evs.all nonTerminalOk = true) :
    (pollLoop runId evs).length = evs.length
    ∧ (pollLoop runId evs).all (fun t => !t.cleared) = true
    ∧ (pollLoop runId evs).all (fun t => t.requests = [.getRunStatus runId]) = true := by
  induction evs with
  | nil => simp [pollLoop]
  | cons e es ih =>
    rw [List.all_cons] at h
    obtain ⟨h1, h2⟩ := Bool.and_eq_true_iff.mp h
    obtain ⟨ih1, ih2, ih3⟩ := ih h2
    unfold nonTerminalOk at h1
    match he : e.statusResp with
    | .error => rw [he] at h1; simp at h1
    | .ok (st, p) =>
      rw [he] at h1
      simp only [Bool.not_eq_true'] at h1
      have hc : (pollTick runId e.statusResp e.outputsResp).cleared = false := by
        rw [he, pollTick_ok_cleared, h1]
      have hr : (pollTick runId e.statusResp e.outputsResp).requests
          = [.getRunStatus runId] := by
        rw [he]
        cases st <;> simp_all [pollTick, isTerminalStatus]
      rw [pollLoop_cons, hc]
      simp only [if_false, Bool.false_eq_true, List.length_cons, List.all_cons, hc, hr,
        ih1, ih2, ih3]
      simp

/-- Closed witness for C4 at a concrete two-event stream. -/
theorem poll_unbounded_without_terminal_witness :
    (pollLoop "run-1" [⟨.ok (.processing, some 40), .ok none⟩,
        ⟨.ok (.pending, none), .ok none⟩]).length
      = [(⟨.ok (.processing, some 40), .ok none⟩ : PollEvent),
         ⟨.ok (.pending, none), .ok none⟩].length
    ∧ (pollLoop "run-1" [⟨.ok (.processing, some 40), .ok none⟩,
        ⟨.ok (.pending, none), .ok none⟩]).all (fun t => !t.cleared) = true
    ∧ (pollLoop "run-1" [⟨.ok (.processing, some 40), .ok none⟩,
        ⟨.ok (.pending, none), .ok none⟩]).all
          (fun t => t.requests = [.getRunStatus "run-1"]) = true :=
  poll_unbounded_without_terminal "run-1"
    [⟨.ok (.processing, some 40), .ok none⟩, ⟨.ok (.pending, none), .ok none⟩]
    (by decide)

/-- C5: a `failed` poll issues no outputs request and sets the error
state; the outputs request is issued by a tick exactly when that tick
observed `success`. -/
theorem outputs_fetched_only_on_success (runId : String) (p : Option Nat)
    (outs : FetchResult (Option (List Output))) (st : RunStatus) :
    (pollTick runId (.ok (.failed, p)) outs).requests = [.getRunStatus runId]
    ∧ (pollTick runId (.ok (.failed, p)) outs).newUI
        = some { status := .error, message := some "Processing failed. Please try again." }
    ∧ (ApiCall.getRunOutputs runId ∈ (pollTick runId (.ok (st, p)) outs).requests
        ↔ st = .success)
    ∧ ApiCall.getRunOutputs runId ∉ (pollTick runId .error outs).requests := by
  refine ⟨rfl, rfl, ?_, by simp [pollTick]⟩
  cases st <;> cases outs <;> simp [pollTick]

/-- Closed witness for C5. -/
theorem outputs_fetched_only_on_success_witness :
    (pollTick "r" (.ok (.failed, some 10)) (.ok none)).requests = [.getRunStatus "r"]
    ∧ (pollTick "r" (.ok (.failed, some 10)) (.ok none)).newUI
        = some { status := .error, message := some "Processing failed. Please try again." }
    ∧ (ApiCall.getRunOutputs "r" ∈ (pollTick "r" (.ok (.pending, some 10)) (.ok none)).requests
        ↔ RunStatus.pending = .success)
    ∧ ApiCall.getRunOutputs "r" ∉ (pollTick "r" .error (.ok none)).requests :=
  outputs_fetched_only_on_success "r" (some 10) (.ok none) .pending

/-- C6: when the pipeline errors, the failure surfaces as the catch
block's error state and toast; no request of the trace is ever issued
twice; a poll error ends the loop with nothing but a log (`newUI = none`);
and an MCP setup failure in the chat route yields the 500 response once. -/
theorem failures_surfaced_never_retried (cfg : EnvConfig) (filename : String)
    (fileSize : Nat) (shortType : ShortType) (promptText : String)
    (env : MosaicEnv) (runId : String) (outs : FetchResult (Option (List Output)))
    (evs : List PollEvent) (ms : List ChatMessage)
    (h : (processVideo cfg filename fileSize shortType promptText env).outcome
          = .errored) :
    (processVideo cfg filename fileSize shortType promptText env).uiOnError
        = some pipelineErrorStatus
    ∧ (processVideo cfg filename fileSize shortType promptText env).toastShown = true
    ∧ (processVideo cfg filename fileSize shortType promptText env).calls.Nodup
    ∧ pollLoop runId (⟨.error, outs⟩ :: evs) = [pollTick runId .error outs]
    ∧ (pollTick runId .error outs).newUI = none
    ∧ chatPOST false ms = .error500 := by
  refine ⟨?_, ?_, ?_, by rw [pollLoop_cons]; rfl, rfl, rfl⟩ <;>
    · unfold processVideo at h ⊢
      rcases env with ⟨u, pu, f, ra⟩
      rcases u with ⟨uu, vid⟩ | _ <;> rcases pu with _ | _ <;>
        rcases f with fu | _ <;> rcases ra with rid | _ <;> simp_all

/-- Closed witness for C6 at a pipeline whose finalize call fails. -/
theorem failures_surfaced_never_retried_witness :
    (processVideo ⟨"w-agent", "t-agent"⟩ "clip.mp4" 9000 .webinar ""
        ⟨.ok ("https://u", "vid-1"), .ok (), .error, .error⟩).uiOnError
        = some pipelineErrorStatus
    ∧ (processVideo ⟨"w-agent", "t-agent"⟩ "clip.mp4" 9000 .webinar ""
        ⟨.ok ("https://u", "vid-1"), .ok (), .error, .error⟩).toastShown = true
    ∧ (processVideo ⟨"w-agent", "t-agent"⟩ "clip.mp4" 9000 .webinar ""
        ⟨.ok ("https://u", "vid-1"), .ok (), .error, .error⟩).calls.Nodup
    ∧ pollLoop "r" (⟨.error, .ok none⟩ :: []) = [pollTick "r" .error (.ok none)]
    ∧ (pollTick "r" .error (.ok none)).newUI = none
    ∧ chatPOST false [] = .error500 :=
  failures_surfaced_never_retried ⟨"w-agent", "t-agent"⟩ "clip.mp4" 9000 .webinar ""
    ⟨.ok ("https://u", "vid-1"), .ok (), .error, .error⟩ "r" (.ok none) [] []
    (by decide)

/-- C7: when every output descriptor carries a non-empty download URL, the
URL list shown to the user has exactly one URL per descriptor, in the same
order. -/
theorem output_urls_one_per_descriptor (outputs : List Output)
    (h : outputs.all (fun o => !(o.download_url.getD "" == "")) = true) :
    extractOutputUrls outputs = outputs.map (fun o => o.download_url.getD "")
    ∧ (extractOutputUrls outputs).length = outputs.length := by
  have main : extractOutputUrls outputs
      = outputs.map (fun o => o.download_url.getD "") := by
    induction outputs with
    | nil => rfl
    | cons o os ih =>
      rw [List.all_cons] at h
      obtain ⟨h1, h2⟩ := Bool.and_eq_true_iff.mp h
      unfold extractOutputUrls at ih ⊢
      rcases ho : o.download_url with _ | s
      · rw [ho] at h1; simp at h1
      · rw [ho] at h1
        simp only [Option.getD_some, bne_iff_ne, Bool.not_eq_true'] at h1
        have hs : ¬ s = "" := by
          intro hs; rw [hs] at h1; simp at h1
        simp [ho, hs, ih h2]
  exact ⟨main, by rw [main, List.length_map]⟩

/-- Closed witness for C7. -/
theorem output_urls_one_per_descriptor_witness :
    extractOutputUrls [⟨some "https://out/1.mp4"⟩, ⟨some "https://out/2.mp4"⟩]
        = [⟨some "https://out/1.mp4"⟩, (⟨some "https://out/2.mp4"⟩ : Output)].map
            (fun o => o.download_url.getD "")
    ∧ (extractOutputUrls [⟨some "https://out/1.mp4"⟩, ⟨some "https://out/2.mp4"⟩]).length
        = [⟨some "https://out/1.mp4"⟩, (⟨some "https://out/2.mp4"⟩ : Output)].length :=
  output_urls_one_per_descriptor [⟨some "https://out/1.mp4"⟩, ⟨some "https://out/2.mp4"⟩]
    (by decide)

/-- C8: the chat route forwards the incoming messages filtered in place:
the result is an order-preserving sublist, a message passes exactly when
the filter keeps it, and a message is kept exactly when it is not an
assistant message carrying a `toolInvocations` list with an invocation not
in state `result`. -/
theorem chat_filter_incomplete_tool_calls (ms : List ChatMessage) (m : ChatMessage) :
    filterMessages ms = ms.filter keepMessage
    ∧ (filterMessages ms).Sublist ms
    ∧ (m ∈ filterMessages ms ↔ m ∈ ms ∧ keepMessage m = true)
    ∧ keepMessage m
        = (!(m.role == "assistant")
           || (match m.toolInvocations with
               | none => true
               | some invs => invs.all (fun inv => inv.state == "result"))) := by
  refine ⟨rfl, List.filter_sublist ms, List.mem_filter, ?_⟩
  unfold keepMessage
  rcases m with ⟨role, _ | invs⟩ <;> by_cases hr : role == "assistant" <;>
    simp_all

/-- Closed witness for C8 on a concrete message list. -/
theorem chat_filter_incomplete_tool_calls_witness :
    filterMessages [⟨"assistant", some [⟨"call"⟩]⟩, ⟨"user", none⟩]
        = [(⟨"assistant", some [⟨"call"⟩]⟩ : ChatMessage), ⟨"user", none⟩].filter keepMessage
    ∧ (filterMessages [⟨"assistant", some [⟨"call"⟩]⟩, ⟨"user", none⟩]).Sublist
        [(⟨"assistant", some [⟨"call"⟩]⟩ : ChatMessage), ⟨"user", none⟩]
    ∧ ((⟨"assistant", some [⟨"call"⟩]⟩ : ChatMessage)
          ∈ filterMessages [⟨"assistant", some [⟨"call"⟩]⟩, ⟨"user", none⟩]
        ↔ (⟨"assistant", some [⟨"call"⟩]⟩ : ChatMessage)
              ∈ [(⟨"assistant", some [⟨"call"⟩]⟩ : ChatMessage), ⟨"user", none⟩]
            ∧ keepMessage ⟨"assistant", some [⟨"call"⟩]⟩ = true)
    ∧ keepMessage ⟨"assistant", some [⟨"call"⟩]⟩
        = (!(("assistant" : String) == "assistant")
           || [(⟨"call"⟩ : ToolInvocation)].all (fun inv => inv.state == "result")) :=
  chat_filter_incomplete_tool_calls [⟨"assistant", some [⟨"call"⟩]⟩, ⟨"user", none⟩]
    ⟨"assistant", some [⟨"call"⟩]⟩

/-- C9, counterexample: a single assistant message containing both a tsx
fence and the upload confirmation advances `currentStep` by two positions
(the effect re-runs after `setCurrentStep` on the same message), refuting
the one-step-per-observed-message bound. -/
theorem demo_step_two_steps_one_message :
    observeMessage .initial
        (some ⟨"assistant", "```tsx code ``` Video uploaded successfully"⟩)
      = .caption
    ∧ stepIdx (observeMessage .initial
        (some ⟨"assistant", "```tsx code ``` Video uploaded successfully"⟩))
      = stepIdx .initial + 2 := by
  constructor
  · decide
  · decide

/-- C9, amended: each invocation of the step-tracking effect moves
`currentStep` forward by at most one position and never backward, whatever
the message says; because the effect re-runs when `currentStep` changes, a
single observed message matching several cues can advance several
consecutive steps (passing through each intermediate step), but the
settled step never moves backward either. -/
theorem demo_step_monotone (cur : DemoStep) (last : Option MsgView) :
    stepIdx cur ≤ stepIdx (advanceStep cur last)
    ∧ stepIdx (advanceStep cur last) ≤ stepIdx cur + 1
    ∧ stepIdx cur ≤ stepIdx (observeMessage cur last) := by
  have key : ∀ c : DemoStep, stepIdx c ≤ stepIdx (advanceStep c last)
      ∧ stepIdx (advanceStep c last) ≤ stepIdx c + 1 := by
    intro c
    rcases last with _ | m
    · exact ⟨Nat.le_refl _, Nat.le_succ _⟩
    · cases c <;> simp only [advanceStep] <;> split_ifs <;> simp_all [stepIdx]
  refine ⟨(key cur).1, (key cur).2, ?_⟩
  unfold observeMessage
  calc stepIdx cur ≤ stepIdx (advanceStep cur last) := (key cur).1
    _ ≤ stepIdx (advanceStep (advanceStep cur last) last) := (key _).1
    _ ≤ stepIdx (advanceStep (advanceStep (advanceStep cur last) last) last) :=
        (key _).1

/-- C3, counterexample: submit a job (one timer) and unmount `App` while
it is in flight — the poll timer is still alive afterwards, because no
effect cleanup of `App` touches `pollInterval`. -/
theorem unmount_leaves_timer_alive :
    (appUnmount (processVideoStartTimer ⟨[]⟩ 0)).activePollTimers = [0]
    ∧ (appUnmount (processVideoStartTimer ⟨[]⟩ 0)).activePollTimers ≠ [] := by
  exact ⟨rfl, by decide⟩

/-- C3, amended: each submitted job creates exactly one poll timer; the
timer is cleared when a tick observes a terminal status (and when a poll
request errors); but unmounting `App` clears nothing — the only teardown
cleanup in the repo is `Chat`'s, and it clears only the scroll timeout. -/
theorem one_timer_cleared_on_completion_not_teardown (s : AppComponentState)
    (t : Nat) (runId : String) (st : RunStatus) (p : Option Nat)
    (outs : FetchResult (Option (List Output))) (evs : List PollEvent)
    (cs : ChatComponentState)
    (h : isTerminalStatus st = true) :
    (processVideoStartTimer s t).activePollTimers.length
        = s.activePollTimers.length + 1
    ∧ timerCleared runId (⟨.ok (st, p), outs⟩ :: evs) = true
    ∧ timerCleared runId (⟨.error, outs⟩ :: evs) = true
    ∧ appUnmount s = s
    ∧ (chatUnmountCleanup cs).scrollTimeout = none := by
  refine ⟨by simp [processVideoStartTimer], ?_, ?_, rfl, rfl⟩
  · unfold timerCleared
    rw [pollLoop_cons]
    have hc := pollTick_ok_cleared runId st p outs
    rw [h] at hc
    simp [hc]
  · unfold timerCleared
    rw [pollLoop_cons]
    simp [pollTick]

/-- Closed witness for the amended C3. -/
theorem one_timer_cleared_on_completion_not_teardown_witness :
    (processVideoStartTimer ⟨[7]⟩ 8).activePollTimers.length
        = (⟨[7]⟩ : AppComponentState).activePollTimers.length + 1
    ∧ timerCleared "r" (⟨.ok (.success, none), .ok none⟩ :: []) = true
    ∧ timerCleared "r" (⟨.error, .ok none⟩ :: []) = true
    ∧ appUnmount ⟨[7]⟩ = (⟨[7]⟩ : AppComponentState)
    ∧ (chatUnmountCleanup ⟨some 3⟩).scrollTimeout = none :=
  one_timer_cleared_on_completion_not_teardown ⟨[7]⟩ 8 "r" .success none (.ok none) []
    ⟨some 3⟩ (by decide)

/-- C10, counterexample: the import regex deletes the import statement's
text but not its newline, so the import line is not removed — an empty
line remains where it was. -/
theorem transformCode_keeps_blank_line :
    transformCode "import x from \"react\";\nconst a = 1" = "\nconst a = 1"
    ∧ transformCode "import x from \"react\";\nconst a = 1" ≠ "const a = 1" := by
  constructor
  · rfl
  · decide

/-- C10, amended: for code whose import lines carry a non-whitespace body
and are each followed by a line starting with a non-whitespace character,
`transformCode` blanks the text of every import line (keeping its newline,
so a blank line remains), leaves every other character unchanged, then
rewrites the first `export` + whitespace + `default` + whitespace +
`function` occurrence to `function`; with no import line and no such
occurrence it is the identity. -/
theorem transformCode_blanks_import_lines (ls : List (List Char))
    (h1 : (ls.all fun l => l.all fun c => !isLineTerm c) = true)
    (h2 : (ls.all fun l => !startsImportish l || cleanImportLine l) = true)
    (h3 : importFollowOkB ls = true) :
    (transformCode ⟨joinLines ls⟩).data
        = replaceFirstExport (joinLines (ls.map blankLine))
    ∧ ((ls.all fun l => !cleanImportLine l) = true →
        hasExportMatch (joinLines ls) = false →
        transformCode ⟨joinLines ls⟩ = ⟨joinLines ls⟩) := by
  have hmain : removeImports (joinLines ls) = joinLines (ls.map blankLine) :=
    removeImports_lines ls h1 h2 h3
  constructor
  · show replaceFirstExport (removeImports (joinLines ls)) = _
    rw [hmain]
  · intro hno hex
    show String.mk (replaceFirstExport (removeImports (joinLines ls)))
      = String.mk (joinLines ls)
    rw [hmain, blank_id ls hno, noExport_id _ hex]

/-- Closed witness for the amended C10 on a two-line input. -/
theorem transformCode_blanks_import_lines_witness :
    (transformCode ⟨joinLines ["import x from \"react\";".data, "const a = 1".data]⟩).data
        = replaceFirstExport
            (joinLines (["import x from \"react\";".data, "const a = 1".data].map blankLine))
    ∧ ((["import x from \"react\";".data, "const a = 1".data].all
          fun l => !cleanImportLine l) = true →
        hasExportMatch
            (joinLines ["import x from \"react\";".data, "const a = 1".data]) = false →
        transformCode ⟨joinLines ["import x from \"react\";".data, "const a = 1".data]⟩
          = ⟨joinLines ["import x from \"react\";".data, "const a = 1".data]⟩) :=
  transformCode_blanks_import_lines
    ["import x from \"react\";".data, "const a = 1".data]
    (by decide) (by decide) (by decide)
